import Mathlib

/-!
# Verification of the retrieval and context-assembly pipeline

This file embeds the core data model and operations of the chat
application's retrieval pipeline (chunker, hybrid retriever with
reciprocal-rank fusion, context budget allocator, answer orchestrator,
citation assignment, vector-index workspace isolation) together with the
frontend streaming consumer and chat-input file filter, and proves the
specified properties about them.

The backend pipeline itself (Python services) is not part of the source
tree handed to us; only its specification and its frontend callers are.
Definitions for those components are therefore modelled from the spec,
as indicated by their doc comments.  The frontend streaming consumers
(`handleSend` / `handleSendToChat` in `Chat.tsx`) and the chat-input
file filter (`handleFileSelect` in `ChatInput.tsx`) are translated
directly from the TypeScript source.

Numeric conventions: relevance scores and ratios are rationals; where a
computation must be executable by kernel reduction, exact fractions are
represented as numerator/denominator pairs of naturals (`Frac`) whose
rational value is given by `Frac.val`.
-/

/-- An unreduced non-negative fraction `num / den`.  Used so that score
and remainder comparisons are executable by cross-multiplication over
`ℕ` while theorem statements speak about the rational value. -/
structure Frac where
  num : ℕ
  den : ℕ
deriving DecidableEq, Repr

/-- The rational value of a fraction. -/
def Frac.val (f : Frac) : ℚ := (f.num : ℚ) / (f.den : ℚ)

/-- Cross-multiplication strict order on fractions. -/
def Frac.flt (a b : Frac) : Prop := a.num * b.den < b.num * a.den

/-- Cross-multiplication equivalence on fractions (equal rational value
for positive denominators). -/
def Frac.feq (a b : Frac) : Prop := a.num * b.den = b.num * a.den

instance : DecidableRel Frac.flt := fun _ _ => inferInstanceAs (Decidable (_ < _))

instance : DecidableRel Frac.feq := fun _ _ => inferInstanceAs (Decidable (_ = _))

/-- Exact addition of fractions. -/
def Frac.add (a b : Frac) : Frac := ⟨a.num * b.den + b.num * a.den, a.den * b.den⟩

theorem Frac.val_add (a b : Frac) (ha : 0 < a.den) (hb : 0 < b.den) :
    (Frac.add a b).val = a.val + b.val := by
  have ha' : ((a.den : ℚ)) ≠ 0 := by positivity
  have hb' : ((b.den : ℚ)) ≠ 0 := by positivity
  simp only [Frac.add, Frac.val]
  push_cast
  field_simp

theorem Frac.flt_val (a b : Frac) (ha : 0 < a.den) (hb : 0 < b.den) :
    Frac.flt a b ↔ a.val < b.val := by
  have ha' : (0 : ℚ) < (a.den : ℚ) := by exact_mod_cast ha
  have hb' : (0 : ℚ) < (b.den : ℚ) := by exact_mod_cast hb
  simp only [Frac.flt, Frac.val]
  rw [div_lt_div_iff₀ ha' hb']
  exact_mod_cast Iff.rfl

theorem Frac.feq_val (a b : Frac) (ha : 0 < a.den) (hb : 0 < b.den) :
    Frac.feq a b ↔ a.val = b.val := by
  have ha' : (0 : ℚ) < (a.den : ℚ) := by exact_mod_cast ha
  have hb' : (0 : ℚ) < (b.den : ℚ) := by exact_mod_cast hb
  simp only [Frac.feq, Frac.val]
  rw [div_eq_div_iff (by positivity) (by positivity)]
  exact_mod_cast Iff.rfl

theorem Frac.flt_trans {a b c : Frac} (ha : 0 < a.den) (hb : 0 < b.den)
    (hc : 0 < c.den) (h1 : Frac.flt a b) (h2 : Frac.flt b c) : Frac.flt a c := by
  rw [Frac.flt_val a b ha hb] at h1
  rw [Frac.flt_val b c hb hc] at h2
  rw [Frac.flt_val a c ha hc]
  exact lt_trans h1 h2

theorem Frac.feq_trans {a b c : Frac} (ha : 0 < a.den) (hb : 0 < b.den)
    (hc : 0 < c.den) (h1 : Frac.feq a b) (h2 : Frac.feq b c) : Frac.feq a c := by
  rw [Frac.feq_val a b ha hb] at h1
  rw [Frac.feq_val b c hb hc] at h2
  rw [Frac.feq_val a c ha hc]
  exact h1.trans h2

theorem Frac.flt_feq_trans {a b c : Frac} (ha : 0 < a.den) (hb : 0 < b.den)
    (hc : 0 < c.den) (h1 : Frac.flt a b) (h2 : Frac.feq b c) : Frac.flt a c := by
  rw [Frac.flt_val a b ha hb] at h1
  rw [Frac.feq_val b c hb hc] at h2
  rw [Frac.flt_val a c ha hc]
  exact h1.trans_eq h2

theorem Frac.feq_flt_trans {a b c : Frac} (ha : 0 < a.den) (hb : 0 < b.den)
    (hc : 0 < c.den) (h1 : Frac.feq a b) (h2 : Frac.flt b c) : Frac.flt a c := by
  rw [Frac.feq_val a b ha hb] at h1
  rw [Frac.flt_val b c hb hc] at h2
  rw [Frac.flt_val a c ha hc]
  exact h1.trans_lt h2

theorem Frac.feq_symm {a b : Frac} (h : Frac.feq a b) : Frac.feq b a := by
  simp only [Frac.feq] at *
  omega

theorem Frac.trichotomy (a b : Frac) :
    Frac.flt a b ∨ Frac.feq a b ∨ Frac.flt b a := by
  simp only [Frac.flt, Frac.feq]
  omega

/-- Lexicographic order: strictly greater fraction key first, ties broken
by the relation `tie`. -/
def fracDescLex (f : α → Frac) (tie : α → α → Prop) (a b : α) : Prop :=
  Frac.flt (f b) (f a) ∨ (Frac.feq (f a) (f b) ∧ tie a b)

instance (f : α → Frac) (tie : α → α → Prop) [DecidableRel tie] :
    DecidableRel (fracDescLex f tie) := fun _ _ =>
  inferInstanceAs (Decidable (_ ∨ _))

theorem fracDescLex_total (f : α → Frac) (tie : α → α → Prop)
    (htie : ∀ a b, tie a b ∨ tie b a) (a b : α) :
    fracDescLex f tie a b ∨ fracDescLex f tie b a := by
  rcases Frac.trichotomy (f a) (f b) with h | h | h
  · exact Or.inr (Or.inl h)
  · rcases htie a b with ht | ht
    · exact Or.inl (Or.inr ⟨h, ht⟩)
    · refine Or.inr (Or.inr ⟨?_, ht⟩)
      simp only [Frac.feq] at *
      omega
  · exact Or.inl (Or.inl h)

theorem fracDescLex_trans (f : α → Frac) (tie : α → α → Prop)
    (hden : ∀ a, 0 < (f a).den)
    (htie : ∀ a b c, tie a b → tie b c → tie a c)
    {a b c : α} (h1 : fracDescLex f tie a b) (h2 : fracDescLex f tie b c) :
    fracDescLex f tie a c := by
  rcases h1 with h1 | ⟨h1e, h1t⟩ <;> rcases h2 with h2 | ⟨h2e, h2t⟩
  · exact Or.inl (Frac.flt_trans (hden c) (hden b) (hden a) h2 h1)
  · exact Or.inl (Frac.feq_flt_trans (hden c) (hden b) (hden a) (Frac.feq_symm h2e) h1)
  · exact Or.inl (Frac.flt_feq_trans (hden c) (hden b) (hden a) h2 (Frac.feq_symm h1e))
  · exact Or.inr ⟨Frac.feq_trans (hden a) (hden b) (hden c) h1e h2e, htie a b c h1t h2t⟩

/-- Membership-keeping first-occurrence deduplication (auxiliary, with an
accumulator of already-seen elements). -/
def firstDedupAux [DecidableEq α] (seen : List α) : List α → List α
  | [] => []
  | x :: xs =>
    if x ∈ seen then firstDedupAux seen xs
    else x :: firstDedupAux (x :: seen) xs

/-- Deduplication keeping the first occurrence of each element, in order
of first appearance. -/
def firstDedup [DecidableEq α] (l : List α) : List α := firstDedupAux [] l

theorem mem_firstDedupAux [DecidableEq α] (seen : List α) (l : List α) (a : α) :
    a ∈ firstDedupAux seen l ↔ a ∈ l ∧ a ∉ seen := by
  induction l generalizing seen with
  | nil => simp [firstDedupAux]
  | cons x xs ih =>
    simp only [firstDedupAux]
    by_cases hx : x ∈ seen
    · simp only [if_pos hx, ih, List.mem_cons]
      constructor
      · rintro ⟨h1, h2⟩
        exact ⟨Or.inr h1, h2⟩
      · rintro ⟨rfl | h1, h2⟩
        · exact absurd hx h2
        · exact ⟨h1, h2⟩
    · simp only [if_neg hx, List.mem_cons, ih]
      by_cases hax : a = x
      · subst hax
        simp [hx]
      · simp [hax]

theorem nodup_firstDedupAux [DecidableEq α] (seen : List α) (l : List α) :
    (firstDedupAux seen l).Nodup := by
  induction l generalizing seen with
  | nil => simp [firstDedupAux]
  | cons x xs ih =>
    simp only [firstDedupAux]
    by_cases hx : x ∈ seen
    · simp only [if_pos hx]
      exact ih seen
    · simp only [if_neg hx]
      refine List.nodup_cons.mpr ⟨?_, ih (x :: seen)⟩
      intro hmem
      rcases (mem_firstDedupAux (x :: seen) xs x).mp hmem with ⟨_, h2⟩
      exact h2 (List.mem_cons_self x seen)

theorem mem_firstDedup [DecidableEq α] (l : List α) (a : α) :
    a ∈ firstDedup l ↔ a ∈ l := by
  simp [firstDedup, mem_firstDedupAux]

theorem nodup_firstDedup [DecidableEq α] (l : List α) : (firstDedup l).Nodup :=
  nodup_firstDedupAux [] l

/-! ## Hybrid Retriever (§4.4): Reciprocal Rank Fusion

Modelled from the spec: the backend retrieval service is not part of the
source tree; §4.4 specifies that dense and sparse searches each return a
ranked candidate list, and fusion assigns each candidate the score
`1 / (rank + k)` summed over the lists in which it appears (absent lists
contribute zero), ties being broken by the better dense rank and then by
chunk ordinal.  Candidates are identified by their chunk ordinal (`ℕ`);
a ranked list is the list of candidate ids in rank order (rank 0 first).
-/

/-- The rank of candidate `c` in a ranked list, if present. -/
def rankIn (l : List ℕ) (c : ℕ) : Option ℕ := l.findIdx? (fun x => x == c)

/-- Modelled from the spec: one list's RRF contribution to a candidate,
`1 / (rank + k)` when present, zero when absent, as an exact fraction. -/
def rrfContribF (k : ℕ) (l : List ℕ) (c : ℕ) : Frac :=
  match rankIn l c with
  | some r => ⟨1, r + k⟩
  | none => ⟨0, 1⟩

/-- Modelled from the spec: the fused RRF score of a candidate as an
exact fraction (sum of the per-list contributions). -/
def rrfScoreF (k : ℕ) (dense sparse : List ℕ) (c : ℕ) : Frac :=
  Frac.add (rrfContribF k dense c) (rrfContribF k sparse c)

/-- The fused RRF score as a rational: the sum, over the lists in which
the candidate appears, of `1 / (rank + k)`, absent lists contributing
zero.  This is the score formula stated in §4.4 of the spec. -/
def rrfScore (k : ℕ) (dense sparse : List ℕ) (c : ℕ) : ℚ :=
  (match rankIn dense c with
   | some r => 1 / ((r : ℚ) + (k : ℚ))
   | none => 0) +
  (match rankIn sparse c with
   | some r => 1 / ((r : ℚ) + (k : ℚ))
   | none => 0)

/-- Tie order of §4.4: better (smaller) dense rank first; a candidate
absent from the dense list ranks after every present one. -/
def denseRankKey (dense : List ℕ) (c : ℕ) : ℕ :=
  match rankIn dense c with
  | some r => r
  | none => dense.length

/-- Modelled from the spec: the fusion order — descending fused score,
ties broken by better dense rank, then by chunk ordinal. -/
def fuseRel (k : ℕ) (dense sparse : List ℕ) : ℕ → ℕ → Prop :=
  fracDescLex (rrfScoreF k dense sparse)
    (fun a b => denseRankKey dense a < denseRankKey dense b ∨
      (denseRankKey dense a = denseRankKey dense b ∧ a ≤ b))

instance (k : ℕ) (dense sparse : List ℕ) : DecidableRel (fuseRel k dense sparse) :=
  fun _ _ => inferInstanceAs (Decidable (_ ∨ _))

/-- Modelled from the spec: the Hybrid Retriever's fused output — the
union of the dense and sparse candidate lists, ordered by descending RRF
score (ties by dense rank, then ordinal), truncated to `topK`. -/
def rrfFuse (k topK : ℕ) (dense sparse : List ℕ) : List ℕ :=
  ((firstDedup (dense ++ sparse)).insertionSort (fuseRel k dense sparse)).take topK

theorem rrfScoreF_den_pos (k : ℕ) (hk : 1 ≤ k) (dense sparse : List ℕ) (c : ℕ) :
    0 < (rrfScoreF k dense sparse c).den := by
  have h1 : 0 < (rrfContribF k dense c).den := by
    unfold rrfContribF
    cases rankIn dense c <;> simp <;> omega
  have h2 : 0 < (rrfContribF k sparse c).den := by
    unfold rrfContribF
    cases rankIn sparse c <;> simp <;> omega
  simpa [rrfScoreF, Frac.add] using Nat.mul_pos h1 h2

theorem rrfScoreF_val (k : ℕ) (hk : 1 ≤ k) (dense sparse : List ℕ) (c : ℕ) :
    (rrfScoreF k dense sparse c).val = rrfScore k dense sparse c := by
  have h1 : 0 < (rrfContribF k dense c).den := by
    unfold rrfContribF
    cases rankIn dense c <;> simp <;> omega
  have h2 : 0 < (rrfContribF k sparse c).den := by
    unfold rrfContribF
    cases rankIn sparse c <;> simp <;> omega
  rw [rrfScoreF, Frac.val_add _ _ h1 h2, rrfScore]
  congr 1
  · unfold rrfContribF
    cases rankIn dense c with
    | none => simp [Frac.val]
    | some r => simp [Frac.val]
  · unfold rrfContribF
    cases rankIn sparse c with
    | none => simp [Frac.val]
    | some r => simp [Frac.val]

theorem fuseRel_total (k : ℕ) (dense sparse : List ℕ) (a b : ℕ) :
    fuseRel k dense sparse a b ∨ fuseRel k dense sparse b a := by
  apply fracDescLex_total
  intro x y
  omega

theorem fuseRel_trans (k : ℕ) (hk : 1 ≤ k) (dense sparse : List ℕ)
    {a b c : ℕ} (h1 : fuseRel k dense sparse a b) (h2 : fuseRel k dense sparse b c) :
    fuseRel k dense sparse a c := by
  refine fracDescLex_trans _ _ (fun x => rrfScoreF_den_pos k hk dense sparse x) ?_ h1 h2
  intro x y z hxy hyz
  omega

theorem fuseRel_score_le (k : ℕ) (hk : 1 ≤ k) (dense sparse : List ℕ)
    {a b : ℕ} (h : fuseRel k dense sparse a b) :
    rrfScore k dense sparse b ≤ rrfScore k dense sparse a := by
  have ha := rrfScoreF_den_pos k hk dense sparse a
  have hb := rrfScoreF_den_pos k hk dense sparse b
  rcases h with h | ⟨h, _⟩
  · rw [Frac.flt_val _ _ hb ha, rrfScoreF_val k hk, rrfScoreF_val k hk] at h
    exact le_of_lt h
  · rw [Frac.feq_val _ _ ha hb, rrfScoreF_val k hk, rrfScoreF_val k hk] at h
    exact le_of_eq h.symm

/-- C1: in every fused list returned by the Hybrid Retriever, the RRF
scores (the sum over the lists in which a candidate appears of
`1 / (rank + k)`, absent lists contributing zero — the definition of
`rrfScore`) are monotonically non-increasing from the first to the last
element, and every output candidate comes from the dense or the sparse
input list (a candidate absent from both never appears). -/
theorem rrf_fusion_monotone_and_complete (k topK : ℕ) (hk : 1 ≤ k)
    (dense sparse : List ℕ) :
    (rrfFuse k topK dense sparse).Pairwise
      (fun a b => rrfScore k dense sparse b ≤ rrfScore k dense sparse a) ∧
    ∀ c ∈ rrfFuse k topK dense sparse, c ∈ dense ∨ c ∈ sparse := by
  constructor
  · have hs : ((firstDedup (dense ++ sparse)).insertionSort
        (fuseRel k dense sparse)).Sorted (fuseRel k dense sparse) := by
      haveI : IsTotal ℕ (fuseRel k dense sparse) := ⟨fuseRel_total k dense sparse⟩
      haveI : IsTrans ℕ (fuseRel k dense sparse) :=
        ⟨fun _ _ _ => fuseRel_trans k hk dense sparse⟩
      exact List.sorted_insertionSort _ _
    have htake := hs.sublist (List.take_sublist topK _)
    exact htake.imp (fun h => fuseRel_score_le k hk dense sparse h)
  · intro c hc
    have h1 : c ∈ (firstDedup (dense ++ sparse)).insertionSort (fuseRel k dense sparse) :=
      (List.take_sublist topK _).mem hc
    have h2 : c ∈ firstDedup (dense ++ sparse) :=
      (List.perm_insertionSort _ _).mem_iff.mp h1
    have h3 : c ∈ dense ++ sparse := (mem_firstDedup _ c).mp h2
    exact List.mem_append.mp h3

/-- Witness for C1 at a concrete input: `k = 60`, `topK = 4`,
dense list `[5, 7]`, sparse list `[7, 9]`. -/
theorem rrf_fusion_monotone_and_complete_witness :
    1 ≤ 60 ∧
    ((rrfFuse 60 4 [5, 7] [7, 9]).Pairwise
      (fun a b => rrfScore 60 [5, 7] [7, 9] b ≤ rrfScore 60 [5, 7] [7, 9] a) ∧
    ∀ c ∈ rrfFuse 60 4 [5, 7] [7, 9], c ∈ [5, 7] ∨ c ∈ [7, 9]) :=
  ⟨by decide, rrf_fusion_monotone_and_complete 60 4 (by decide) [5, 7] [7, 9]⟩

/-! ## Context Budget Allocator (§4.7)

Modelled from the spec: the backend allocator is not part of the source
tree.  §4.7 specifies integer token allotments per pool computed from a
token ceiling and three configured ratios summing to 1.0, rounded by the
largest-remainder method so the allotments sum exactly to the ceiling,
and pools greedily filled without exceeding their allotment.  Ratios are
exact fractions (`Frac`); `0.7` is `⟨7, 10⟩` and so on.
-/

/-- Modelled from the spec: the floor part `⌊ratio · ceiling⌋` of one
pool's allotment. -/
def floorPart (C : ℕ) (r : Frac) : ℕ := r.num * C / r.den

/-- Modelled from the spec: the fractional remainder of one pool's ideal
share, `ratio · ceiling - ⌊ratio · ceiling⌋`, as an exact fraction. -/
def fracRem (C : ℕ) (r : Frac) : Frac := ⟨r.num * C % r.den, r.den⟩

/-- The floor allotments of all pools. -/
def lrFloors (C : ℕ) (ratios : List Frac) : List ℕ := ratios.map (floorPart C)

/-- The number of leftover tokens to distribute after flooring. -/
def lrRemainderCount (C : ℕ) (ratios : List Frac) : ℕ := C - (lrFloors C ratios).sum

/-- Modelled from the spec: pool indices ordered by descending
fractional remainder (ties by pool index — deterministic). -/
def lrPrio (C : ℕ) (ratios : List Frac) : List ℕ :=
  (List.range ratios.length).insertionSort
    (fracDescLex (fun i => fracRem C (ratios.getD i ⟨0, 1⟩)) (· ≤ ·))

/-- The pools that receive one extra token (largest remainders first). -/
def lrChosen (C : ℕ) (ratios : List Frac) : List ℕ :=
  (lrPrio C ratios).take (lrRemainderCount C ratios)

/-- Modelled from the spec: largest-remainder rounding — every pool gets
the floor of its ideal share, and the leftover tokens go one each to the
pools with the largest fractional remainders. -/
def lrAlloc (C : ℕ) (ratios : List Frac) : List ℕ :=
  (List.range ratios.length).map
    (fun i => (lrFloors C ratios).getD i 0 + if i ∈ lrChosen C ratios then 1 else 0)

/-- Modelled from the spec: greedy filling of one pool — items are taken
in order (newest-first history, rank-ordered passages) while they fit in
the remaining allotment; the first item that does not fit stops the
walk.  Items are measured in tokens. -/
def takeWithinBudget : ℕ → List ℕ → List ℕ
  | _, [] => []
  | a, m :: ms => if m ≤ a then m :: takeWithinBudget (a - m) ms else []

theorem takeWithinBudget_sum_le (a : ℕ) (l : List ℕ) :
    (takeWithinBudget a l).sum ≤ a := by
  induction l generalizing a with
  | nil => simp [takeWithinBudget]
  | cons m ms ih =>
    simp only [takeWithinBudget]
    by_cases hm : m ≤ a
    · simp only [if_pos hm, List.sum_cons]
      have := ih (a - m)
      omega
    · simp [if_neg hm]

theorem nat_lt_div_succ_mul (a b : ℕ) (hb : 0 < b) : a < (a / b + 1) * b := by
  have h1 := Nat.div_add_mod a b
  have h2 := Nat.mod_lt a hb
  calc a = b * (a / b) + a % b := h1.symm
  _ < b * (a / b) + b := by omega
  _ = (a / b + 1) * b := by ring

theorem floorPart_le (C : ℕ) (r : Frac) (hd : 0 < r.den) :
    ((floorPart C r : ℕ) : ℚ) ≤ r.val * C := by
  have h1 : ((r.num * C / r.den : ℕ) : ℚ) ≤ ((r.num * C : ℕ) : ℚ) / ((r.den : ℕ) : ℚ) :=
    Nat.cast_div_le
  calc ((floorPart C r : ℕ) : ℚ) ≤ ((r.num * C : ℕ) : ℚ) / ((r.den : ℕ) : ℚ) := h1
  _ = r.val * C := by
      rw [Frac.val]
      push_cast
      ring

theorem floorPart_gt (C : ℕ) (r : Frac) (hd : 0 < r.den) :
    r.val * C < (floorPart C r : ℕ) + 1 := by
  have hd' : (0 : ℚ) < (r.den : ℚ) := by exact_mod_cast hd
  have h1 : r.num * C < (r.num * C / r.den + 1) * r.den := nat_lt_div_succ_mul _ _ hd
  have h2 : ((r.num * C : ℕ) : ℚ) < ((r.num * C / r.den + 1 : ℕ) : ℚ) * (r.den : ℚ) := by
    push_cast
    exact_mod_cast by push_cast at h1 ⊢; exact_mod_cast h1
  have h3 : ((r.num : ℚ) * C) / (r.den : ℚ) < ((r.num * C / r.den + 1 : ℕ) : ℚ) := by
    rw [div_lt_iff₀ hd']
    push_cast at h2 ⊢
    linarith
  calc r.val * C = ((r.num : ℚ) * C) / (r.den : ℚ) := by rw [Frac.val]; ring
  _ < ((r.num * C / r.den + 1 : ℕ) : ℚ) := h3
  _ = (floorPart C r : ℕ) + 1 := by rw [floorPart]; push_cast; ring

theorem lrFloors_triple_bounds (C : ℕ) (r1 r2 r3 : Frac)
    (hd1 : 0 < r1.den) (hd2 : 0 < r2.den) (hd3 : 0 < r3.den)
    (hsum : r1.val + r2.val + r3.val = 1) :
    floorPart C r1 + floorPart C r2 + floorPart C r3 ≤ C ∧
    C < floorPart C r1 + floorPart C r2 + floorPart C r3 + 3 := by
  have hle1 := floorPart_le C r1 hd1
  have hle2 := floorPart_le C r2 hd2
  have hle3 := floorPart_le C r3 hd3
  have hgt1 := floorPart_gt C r1 hd1
  have hgt2 := floorPart_gt C r2 hd2
  have hgt3 := floorPart_gt C r3 hd3
  have hC : r1.val * C + r2.val * C + r3.val * C = (C : ℚ) := by
    have : (r1.val + r2.val + r3.val) * C = (C : ℚ) := by rw [hsum]; ring
    linarith [this]
  constructor
  · have : ((floorPart C r1 + floorPart C r2 + floorPart C r3 : ℕ) : ℚ) ≤ (C : ℚ) := by
      push_cast
      linarith
    exact_mod_cast this
  · have : ((C : ℕ) : ℚ) < ((floorPart C r1 + floorPart C r2 + floorPart C r3 + 3 : ℕ) : ℚ) := by
      push_cast
      linarith
    exact_mod_cast this

theorem lrPrio_perm (C : ℕ) (ratios : List Frac) :
    List.Perm (lrPrio C ratios) (List.range ratios.length) :=
  List.perm_insertionSort _ _

theorem lrChosen_nodup (C : ℕ) (ratios : List Frac) : (lrChosen C ratios).Nodup :=
  List.Sublist.nodup (List.take_sublist _ _)
    ((lrPrio_perm C ratios).nodup_iff.mpr (List.nodup_range _))

theorem lrChosen_mem_lt (C : ℕ) (ratios : List Frac) (x : ℕ)
    (hx : x ∈ lrChosen C ratios) : x < ratios.length := by
  have h1 : x ∈ lrPrio C ratios := (List.take_sublist _ _).mem hx
  have h2 : x ∈ List.range ratios.length := (lrPrio_perm C ratios).mem_iff.mp h1
  exact List.mem_range.mp h2

theorem lrChosen_length (C : ℕ) (ratios : List Frac)
    (h : lrRemainderCount C ratios ≤ ratios.length) :
    (lrChosen C ratios).length = lrRemainderCount C ratios := by
  have hp : (lrPrio C ratios).length = ratios.length := by
    rw [(lrPrio_perm C ratios).length_eq, List.length_range]
  rw [lrChosen, List.length_take, hp]
  omega

theorem indicator_sum_three (s : List ℕ) (hnd : s.Nodup) (hlt : ∀ x ∈ s, x < 3) :
    ((if 0 ∈ s then 1 else 0) + ((if 1 ∈ s then 1 else 0) + (if 2 ∈ s then 1 else 0)) : ℕ)
      = s.length := by
  induction s with
  | nil => simp
  | cons x t ih =>
    rcases List.nodup_cons.mp hnd with ⟨hx, hnt⟩
    have hx3 : x < 3 := hlt x (List.mem_cons_self x t)
    have ht3 : ∀ y ∈ t, y < 3 := fun y hy => hlt y (List.mem_cons_of_mem x hy)
    have iht := ih hnt ht3
    interval_cases x <;> simp_all [List.mem_cons] <;> omega

theorem lrAlloc_triple_sum (C : ℕ) (r1 r2 r3 : Frac)
    (hd1 : 0 < r1.den) (hd2 : 0 < r2.den) (hd3 : 0 < r3.den)
    (hsum : r1.val + r2.val + r3.val = 1) :
    (lrAlloc C [r1, r2, r3]).sum = C := by
  obtain ⟨hle, hlt⟩ := lrFloors_triple_bounds C r1 r2 r3 hd1 hd2 hd3 hsum
  have hfl : lrFloors C [r1, r2, r3] = [floorPart C r1, floorPart C r2, floorPart C r3] := rfl
  have hflsum : (lrFloors C [r1, r2, r3]).sum
      = floorPart C r1 + floorPart C r2 + floorPart C r3 := by
    rw [hfl]; simp [List.sum_cons]; ring
  have hR : lrRemainderCount C [r1, r2, r3]
      = C - (floorPart C r1 + floorPart C r2 + floorPart C r3) := by
    rw [lrRemainderCount, hflsum]
  have hR3 : lrRemainderCount C [r1, r2, r3] ≤ 3 := by omega
  have hchlen : (lrChosen C [r1, r2, r3]).length = lrRemainderCount C [r1, r2, r3] :=
    lrChosen_length C [r1, r2, r3] (by simpa using hR3)
  have hind := indicator_sum_three (lrChosen C [r1, r2, r3]) (lrChosen_nodup C [r1, r2, r3])
    (fun x hx => by simpa using lrChosen_mem_lt C [r1, r2, r3] x hx)
  have hrange : List.range ([r1, r2, r3] : List Frac).length = [0, 1, 2] := rfl
  have hgd0 : (lrFloors C [r1, r2, r3]).getD 0 0 = floorPart C r1 := rfl
  have hgd1 : (lrFloors C [r1, r2, r3]).getD 1 0 = floorPart C r2 := rfl
  have hgd2 : (lrFloors C [r1, r2, r3]).getD 2 0 = floorPart C r3 := rfl
  rw [lrAlloc, hrange]
  simp only [List.map_cons, List.map_nil, List.sum_cons, List.sum_nil, hgd0, hgd1, hgd2]
  omega

/-- C2: for every token ceiling and every triple of ratios (with positive
denominators) summing to 1, the largest-remainder allotments sum exactly
to the ceiling; greedy truncation never consumes more tokens than a
pool's allotment; and ceiling 1000 with ratios (0.7 / 0.15 / 0.15)
yields allotments (700 / 150 / 150). -/
theorem budget_allocation_exact (C : ℕ) (r1 r2 r3 : Frac)
    (hd1 : 0 < r1.den) (hd2 : 0 < r2.den) (hd3 : 0 < r3.den)
    (hsum : r1.val + r2.val + r3.val = 1) :
    (lrAlloc C [r1, r2, r3]).sum = C ∧
    (∀ (i : ℕ) (pool : List ℕ),
      (takeWithinBudget ((lrAlloc C [r1, r2, r3]).getD i 0) pool).sum
        ≤ (lrAlloc C [r1, r2, r3]).getD i 0) ∧
    lrAlloc 1000 [⟨7, 10⟩, ⟨3, 20⟩, ⟨3, 20⟩] = [700, 150, 150] := by
  refine ⟨lrAlloc_triple_sum C r1 r2 r3 hd1 hd2 hd3 hsum, ?_, ?_⟩
  · intro i pool
    exact takeWithinBudget_sum_le _ pool
  · decide

/-- Witness for C2 at the concrete scenario of the spec: ceiling 1000,
ratios 7/10, 3/20, 3/20. -/
theorem budget_allocation_exact_witness :
    ((0 : ℕ) < (Frac.mk 7 10).den ∧ (0 : ℕ) < (Frac.mk 3 20).den ∧
      (0 : ℕ) < (Frac.mk 3 20).den ∧
      (Frac.mk 7 10).val + (Frac.mk 3 20).val + (Frac.mk 3 20).val = 1) ∧
    (lrAlloc 1000 [⟨7, 10⟩, ⟨3, 20⟩, ⟨3, 20⟩]).sum = 1000 :=
  ⟨⟨by decide, by decide, by decide, by norm_num [Frac.val]⟩,
    (budget_allocation_exact 1000 ⟨7, 10⟩ ⟨3, 20⟩ ⟨3, 20⟩ (by decide) (by decide)
      (by decide) (by norm_num [Frac.val])).1⟩

/-! ## Chunker (§4.1)

Modelled from the spec: the backend chunker is not part of the source
tree.  §4.1 specifies a scan over structural units (paragraphs, tables,
fenced code blocks) that accumulates text until the soft target size is
reached and then closes the chunk at the preceding safe boundary; a
structural unit is never split, so a unit larger than the hard ceiling
becomes its own oversized chunk.  A structural unit is its token size
plus a flag marking tables / fenced code blocks.
-/

/-- A structural unit of linearized document text: its token size and
whether it is a table or fenced code block (never splittable). -/
structure SUnit where
  size : ℕ
  atomic : Bool
deriving DecidableEq, Repr

/-- Total token size of a list of structural units. -/
def unitsSize (l : List SUnit) : ℕ := (l.map SUnit.size).sum

/-- Modelled from the spec: the chunking scan.  `cur` is the current
chunk under construction (in reverse order).  A unit is added while the
current chunk stays within the soft target; otherwise the current chunk
is closed at the unit boundary and a new chunk starts.  Units are never
split. -/
def chunkAcc (soft : ℕ) (cur : List SUnit) : List SUnit → List (List SUnit)
  | [] => if cur.isEmpty then [] else [cur.reverse]
  | u :: us =>
    if cur.isEmpty then chunkAcc soft [u] us
    else if soft < unitsSize cur + u.size then cur.reverse :: chunkAcc soft [u] us
    else chunkAcc soft (u :: cur) us

/-- Modelled from the spec: the Chunker — split a list of structural
units into chunks. -/
def chunkUnits (soft : ℕ) (units : List SUnit) : List (List SUnit) :=
  chunkAcc soft [] units

theorem chunkAcc_flatten (soft : ℕ) (us : List SUnit) :
    ∀ cur, (chunkAcc soft cur us).flatten = cur.reverse ++ us := by
  induction us with
  | nil =>
    intro cur
    by_cases hc : cur.isEmpty
    · have : cur = [] := List.isEmpty_iff.mp hc
      simp [chunkAcc, hc, this]
    · simp [chunkAcc, hc]
  | cons u us ih =>
    intro cur
    by_cases hc : cur.isEmpty
    · have hnil : cur = [] := List.isEmpty_iff.mp hc
      simp [chunkAcc, hc, hnil, ih [u]]
    · simp only [chunkAcc, if_neg hc]
      by_cases hover : soft < unitsSize cur + u.size
      · simp [if_pos hover, ih [u]]
      · simp [if_neg hover, ih (u :: cur)]

theorem chunkAcc_shape (soft : ℕ) (us : List SUnit) :
    ∀ cur, (cur = [] ∨ unitsSize cur ≤ soft ∨ ∃ u, cur = [u]) →
      ∀ c ∈ chunkAcc soft cur us,
        c ≠ [] ∧ (unitsSize c ≤ soft ∨ ∃ u, c = [u]) := by
  induction us with
  | nil =>
    intro cur hcur c hc
    by_cases hce : cur.isEmpty
    · simp [chunkAcc, hce] at hc
    · simp only [chunkAcc, if_neg hce, List.mem_singleton] at hc
      subst hc
      have hne : cur ≠ [] := fun h => hce (by simp [h])
      refine ⟨by simpa using hne, ?_⟩
      rcases hcur with h | h | ⟨u, h⟩
      · exact absurd h hne
      · exact Or.inl (by simpa [unitsSize, List.sum_reverse] using h)
      · exact Or.inr ⟨u, by simp [h]⟩
  | cons u us ih =>
    intro cur hcur c hc
    by_cases hce : cur.isEmpty
    · simp only [chunkAcc, if_pos hce] at hc
      exact ih [u] (Or.inr (Or.inr ⟨u, rfl⟩)) c hc
    · simp only [chunkAcc, if_neg hce] at hc
      by_cases hover : soft < unitsSize cur + u.size
      · rw [if_pos hover] at hc
        rcases List.mem_cons.mp hc with rfl | hc
        · have hne : cur ≠ [] := fun h => hce (by simp [h])
          refine ⟨by simpa using hne, ?_⟩
          rcases hcur with h | h | ⟨v, h⟩
          · exact absurd h hne
          · exact Or.inl (by simpa [unitsSize, List.sum_reverse] using h)
          · exact Or.inr ⟨v, by simp [h]⟩
        · exact ih [u] (Or.inr (Or.inr ⟨u, rfl⟩)) c hc
      · rw [if_neg hover] at hc
        refine ih (u :: cur) (Or.inr (Or.inl ?_)) c hc
        simp only [unitsSize, List.map_cons, List.sum_cons] at hover ⊢
        omega

theorem unit_le_unitsSize {u : SUnit} {c : List SUnit} (h : u ∈ c) :
    u.size ≤ unitsSize c := by
  have : u.size ∈ c.map SUnit.size := List.mem_map.mpr ⟨u, h, rfl⟩
  exact List.single_le_sum (fun x _ => Nat.zero_le x) _ this

/-- C8: the Chunker is deterministic (identical structural input yields
an identical chunk sequence); no structural unit is ever split across
chunks (the chunks flatten back to exactly the input, in order); and a
table / code-fence unit whose size alone exceeds the hard ceiling sits
in a chunk of its own (it becomes one oversized chunk rather than being
split or merged). -/
theorem chunker_deterministic_and_boundaries (soft hard : ℕ) (hsh : soft ≤ hard)
    (input inputAgain : List SUnit) (heq : input = inputAgain) :
    chunkUnits soft input = chunkUnits soft inputAgain ∧
    (chunkUnits soft input).flatten = input ∧
    ∀ c ∈ chunkUnits soft input, ∀ u ∈ c,
      u.atomic = true → hard < u.size → c = [u] := by
  refine ⟨by rw [heq], by simpa using chunkAcc_flatten soft input [], ?_⟩
  intro c hc u hu _ hbig
  have hshape := chunkAcc_shape soft input [] (Or.inl rfl) c hc
  rcases hshape.2 with hsz | ⟨v, hv⟩
  · have := unit_le_unitsSize hu
    omega
  · subst hv
    rcases List.mem_singleton.mp hu with rfl
    rfl

/-- Witness for C8: soft target 10, hard ceiling 20, an input containing
an oversized table unit. -/
theorem chunker_deterministic_and_boundaries_witness :
    ((10 : ℕ) ≤ 20 ∧
      [SUnit.mk 5 false, SUnit.mk 25 true, SUnit.mk 3 false]
        = [SUnit.mk 5 false, SUnit.mk 25 true, SUnit.mk 3 false]) ∧
    (chunkUnits 10 [SUnit.mk 5 false, SUnit.mk 25 true, SUnit.mk 3 false]).flatten
      = [SUnit.mk 5 false, SUnit.mk 25 true, SUnit.mk 3 false] :=
  ⟨⟨by decide, rfl⟩,
    (chunker_deterministic_and_boundaries 10 20 (by decide) _ _ rfl).2.1⟩

/-! ## Embedding failure: all-or-nothing per document (§4.2, §5, §8)

Modelled from the spec: the backend embedding/ingestion service is not
part of the source tree.  §4.2 specifies that a failed embedding batch
is retried a fixed number of times; exhausted retries fail the whole
embedding operation for the document — the document becomes `failed`
(never `embedded`) and no partial chunk set is committed to the Vector
Index.  A batch's retry history is the list of its attempt outcomes
(initial attempt plus retries).
-/

/-- Document embedding status. -/
inductive DocStatus
  | unembedded
  | embedding
  | embedded
  | failed
deriving DecidableEq, Repr

/-- One chunk committed to the Vector Index: parent document id and
chunk ordinal. -/
structure ChunkEntry where
  doc : ℕ
  ord : ℕ
deriving DecidableEq, Repr

/-- A batch succeeds iff some attempt (initial or retry) succeeded. -/
def batchSucceeds (tries : List Bool) : Bool := tries.any id

/-- All batches of a document succeeded. -/
def allBatchesSucceed (outcomes : List (List Bool)) : Bool :=
  outcomes.all batchSucceeds

/-- Modelled from the spec: ingestion of one document — if every batch
eventually succeeded the document becomes `embedded` and all its chunks
are committed at once; otherwise the document becomes `failed` and
nothing is committed (all-or-nothing at document granularity). -/
def ingestDocument (index : List ChunkEntry) (docId : ℕ) (chunkOrds : List ℕ)
    (outcomes : List (List Bool)) : DocStatus × List ChunkEntry :=
  if allBatchesSucceed outcomes then
    (DocStatus.embedded, index ++ chunkOrds.map (fun o => ⟨docId, o⟩))
  else (DocStatus.failed, index)

/-- The chunks of one document visible to retrieval. -/
def docChunks (index : List ChunkEntry) (d : ℕ) : List ChunkEntry :=
  index.filter (fun e => e.doc == d)

/-- C5: if some batch of a document fails all its attempts (retries
exhausted), the whole embedding operation fails: the document's status
is `failed` (never `embedded`), zero chunks of that document are
committed to the Vector Index, and the chunks every other document
exposes to retrieval are exactly what they were before. -/
theorem embedding_failure_all_or_nothing (index : List ChunkEntry) (docId : ℕ)
    (chunkOrds : List ℕ) (outcomes : List (List Bool))
    (hfresh : docChunks index docId = [])
    (hfail : ∃ b ∈ outcomes, batchSucceeds b = false) :
    (ingestDocument index docId chunkOrds outcomes).1 = DocStatus.failed ∧
    (ingestDocument index docId chunkOrds outcomes).1 ≠ DocStatus.embedded ∧
    docChunks (ingestDocument index docId chunkOrds outcomes).2 docId = [] ∧
    ∀ d, docChunks (ingestDocument index docId chunkOrds outcomes).2 d
      = docChunks index d := by
  obtain ⟨b, hb, hbf⟩ := hfail
  have hall : allBatchesSucceed outcomes = false := by
    by_contra h
    have h' : allBatchesSucceed outcomes = true := by
      cases halt : allBatchesSucceed outcomes
      · exact absurd halt h
      · rfl
    have := (List.all_eq_true.mp h') b hb
    rw [hbf] at this
    exact Bool.false_ne_true this
  simp [ingestDocument, hall, hfresh]

/-- Witness for C5: one document with two chunks whose single batch
failed its initial attempt and all three retries. -/
theorem embedding_failure_all_or_nothing_witness :
    (docChunks [ChunkEntry.mk 1 0, ChunkEntry.mk 1 1] 2 = [] ∧
      ∃ b ∈ [[false, false, false, false]], batchSucceeds b = false) ∧
    (ingestDocument [ChunkEntry.mk 1 0, ChunkEntry.mk 1 1] 2 [0, 1]
      [[false, false, false, false]]).1 = DocStatus.failed :=
  ⟨⟨by decide, ⟨[false, false, false, false], by decide, by decide⟩⟩,
    (embedding_failure_all_or_nothing [ChunkEntry.mk 1 0, ChunkEntry.mk 1 1] 2 [0, 1]
      [[false, false, false, false]] (by decide)
      ⟨[false, false, false, false], by decide, by decide⟩).1⟩

/-! ## Soft-fail optional stages: Reranker and Query Expander (§4.5, §4.6, §7)

Modelled from the spec: the backend retrieval service is not part of the
source tree.  §4.6 specifies that reranker unavailability falls back to
the pre-rerank fused order, unaltered; §4.5 specifies that a failed or
timed-out query expansion leaves retrieval running with only the
original query; §7 specifies that these failures never abort the answer
and are never surfaced to the user.  Following the design note in §9,
an optional stage's outcome is an explicit result type. -/
inductive StageResult (α : Type)
  | ok (v : α)
  | skipped (reason : List Char)
deriving DecidableEq

/-- Modelled from the spec: apply the optional reranker — a successful
rerank totally overrides the fusion order and truncates to `topN`; an
unavailable / timed-out reranker leaves the fused order unaltered. -/
def applyRerank (res : StageResult (List ℕ)) (fused : List ℕ) (topN : ℕ) : List ℕ :=
  match res with
  | StageResult.ok reranked => reranked.take topN
  | StageResult.skipped _ => fused

/-- Modelled from the spec: the queries actually retrieved — the
original query plus the expansion variants when expansion succeeded,
the original query alone when it failed or timed out. -/
def expandedQueries (res : StageResult (List (List Char))) (q : List Char) :
    List (List Char) :=
  match res with
  | StageResult.ok variants => q :: variants
  | StageResult.skipped _ => [q]

/-- The outcome of answering one query. -/
structure AnswerOutcome where
  finalOrder : List ℕ
  answerProduced : Bool
  errorSurfaced : Bool
deriving DecidableEq, Repr

/-- Modelled from the spec: the orchestrator always produces an answer
from the (possibly reranked) candidate order and never surfaces
optional-stage failures to the user. -/
def orchestrateAnswer (rerank : StageResult (List ℕ)) (fused : List ℕ)
    (topN : ℕ) : AnswerOutcome :=
  { finalOrder := applyRerank rerank fused topN
    answerProduced := true
    errorSurfaced := false }

/-- C6: when the reranker call fails or times out, the final candidate
order equals the pre-rerank fused order unaltered, an answer is still
produced and no error is surfaced; and a failed or timed-out query
expansion leaves retrieval running with exactly the original query, so
it never blocks the request. -/
theorem optional_stage_failures_are_soft (rerank : StageResult (List ℕ))
    (expansion : StageResult (List (List Char))) (fused : List ℕ) (topN : ℕ)
    (q : List Char) (rr er : List Char)
    (hr : rerank = StageResult.skipped rr)
    (he : expansion = StageResult.skipped er) :
    (orchestrateAnswer rerank fused topN).finalOrder = fused ∧
    (orchestrateAnswer rerank fused topN).answerProduced = true ∧
    (orchestrateAnswer rerank fused topN).errorSurfaced = false ∧
    expandedQueries expansion q = [q] := by
  subst hr he
  exact ⟨rfl, rfl, rfl, rfl⟩

/-- Witness for C6: a timed-out reranker and a failed expansion on a
concrete fused list. -/
theorem optional_stage_failures_are_soft_witness :
    ((StageResult.skipped "timeout".toList : StageResult (List ℕ))
        = StageResult.skipped "timeout".toList ∧
      (StageResult.skipped "error".toList : StageResult (List (List Char)))
        = StageResult.skipped "error".toList) ∧
    (orchestrateAnswer (StageResult.skipped "timeout".toList) [3, 1, 2] 2).finalOrder
      = [3, 1, 2] :=
  ⟨⟨rfl, rfl⟩,
    (optional_stage_failures_are_soft (StageResult.skipped "timeout".toList)
      (StageResult.skipped "error".toList) [3, 1, 2] 2 "q".toList
      "timeout".toList "error".toList rfl rfl).1⟩

/-! ## Vector Index: workspace isolation (§4.3, §5)

Modelled from the spec: the backend vector-store clients are not part of
the source tree.  §4.3 specifies that each workspace owns one isolated
collection and that `search(workspace_id, …)` can only ever return
candidates from that workspace's collection; §5 specifies that isolation
is enforced purely by namespacing.  The store is the multiset of
(workspace id, chunk) pairs written by `upsert`; similarity scores are
integer dot products (standing in for real-valued similarity). -/
structure ChunkRec where
  id : ℕ
  vec : List ℤ
deriving DecidableEq, Repr

/-- Integer dot product used as the similarity score. -/
def dotZ (u v : List ℤ) : ℤ := (List.zipWith (fun a b => a * b) u v).sum

/-- A workspace's own collection: exactly the entries upserted under its
workspace id. -/
def wsEntries (store : List (ℕ × ChunkRec)) (ws : ℕ) : List ChunkRec :=
  (store.filter (fun e => e.1 == ws)).map Prod.snd

/-- Ranking by descending similarity to the query vector. -/
def simRel (q : List ℤ) (a b : ChunkRec) : Prop := dotZ q b.vec ≤ dotZ q a.vec

instance (q : List ℤ) : DecidableRel (simRel q) := fun _ _ =>
  inferInstanceAs (Decidable (_ ≤ _))

/-- Modelled from the spec: `search(workspace_id, query_vector, top_k)`
— rank the workspace's own collection by similarity and return the top
`top_k` candidates. -/
def searchIndex (store : List (ℕ × ChunkRec)) (ws : ℕ) (q : List ℤ)
    (topK : ℕ) : List ChunkRec :=
  ((wsEntries store ws).insertionSort (simRel q)).take topK

/-- C7: every candidate returned by a search for workspace `ws` is an
entry of `ws`'s own collection (no chunk of a different workspace can
appear), and the result depends only on `ws`'s collection: two stores
whose `ws`-collections agree yield identical search results no matter
what the other workspaces contain. -/
theorem search_workspace_isolation (store store2 : List (ℕ × ChunkRec))
    (ws : ℕ) (q : List ℤ) (topK : ℕ)
    (hagree : store.filter (fun e => e.1 == ws) = store2.filter (fun e => e.1 == ws)) :
    (∀ c ∈ searchIndex store ws q topK, (ws, c) ∈ store) ∧
    searchIndex store ws q topK = searchIndex store2 ws q topK := by
  constructor
  · intro c hc
    have h1 : c ∈ (wsEntries store ws).insertionSort (simRel q) :=
      (List.take_sublist topK _).mem hc
    have h2 : c ∈ wsEntries store ws := (List.perm_insertionSort _ _).mem_iff.mp h1
    obtain ⟨e, he, hec⟩ := List.mem_map.mp h2
    have hef := List.mem_filter.mp he
    have hews : e.1 = ws := by simpa using hef.2
    have : (ws, c) = e := by
      rw [← hews, ← hec]
    rw [this]
    exact hef.1
  · unfold searchIndex wsEntries
    rw [hagree]

/-- Witness for C7: two stores that agree on workspace 1 but differ on
workspace 2. -/
theorem search_workspace_isolation_witness :
    (([((1 : ℕ), ChunkRec.mk 10 [1, 0]), (2, ChunkRec.mk 20 [5, 5])].filter
        (fun e => e.1 == 1))
      = ([((1 : ℕ), ChunkRec.mk 10 [1, 0])].filter (fun e => e.1 == 1))) ∧
    ∀ c ∈ searchIndex [((1 : ℕ), ChunkRec.mk 10 [1, 0]), (2, ChunkRec.mk 20 [5, 5])] 1 [1, 1] 5,
      ((1 : ℕ), c) ∈ [((1 : ℕ), ChunkRec.mk 10 [1, 0]), (2, ChunkRec.mk 20 [5, 5])] :=
  ⟨by decide,
    (search_workspace_isolation [((1 : ℕ), ChunkRec.mk 10 [1, 0]), (2, ChunkRec.mk 20 [5, 5])]
      [((1 : ℕ), ChunkRec.mk 10 [1, 0])] 1 [1, 1] 5 (by decide)).1⟩

/-! ## Frontend streaming consumers (`Chat.tsx`)

The answer stream is a byte stream of SSE-style lines
`data: {"content":"…"}\n`; the network delivers it as an arbitrary
sequence of reads.  Text is modelled as `List Char` (one element per
decoded character).  The JSON payload layer is modelled for
escape-free content strings (no quote, backslash or newline inside the
content), on which the simplified decoder below agrees with
`JSON.parse(line.slice(6)).content` as used by the source.

`handleSend` (Chat.tsx lines 155–192) splits `buffer + chunk` on
newlines and keeps the last (possibly incomplete) line in the buffer
for the next read.  `handleSendToChat` (Chat.tsx lines 247–275) splits
each read chunk on newlines with no cross-read buffer. -/
def lbraceChar : Char := '{'

def rbraceChar : Char := '}'

/-- `text.split(sep)` of JavaScript: splitting on a separator character,
always returning at least one (possibly empty) piece. -/
def splitOnChar (sep : Char) : List Char → List (List Char)
  | [] => [[]]
  | c :: cs =>
    if c = sep then [] :: splitOnChar sep cs
    else
      match splitOnChar sep cs with
      | [] => [[c]]
      | l :: ls => (c :: l) :: ls

/-- `chunk.split('\n')` as used by both consumers. -/
def splitLines (s : List Char) : List (List Char) := splitOnChar '\n' s

/-- The `data: ` SSE line header tested by `line.startsWith('data: ')`. -/
def sseHeader : List Char := "data: ".toList

/-- The leading characters of a content payload. -/
def contentOpen : List Char := lbraceChar :: "\"content\":\"".toList

/-- The trailing characters of a content payload. -/
def contentClose : List Char := '\"' :: [rbraceChar]

/-- The orchestrator's wire encoding of one content delta (§6 answer
stream format), for escape-free delta text. -/
def encodeEvent (d : List Char) : List Char :=
  sseHeader ++ contentOpen ++ d ++ contentClose ++ ['\n']

/-- `JSON.parse(payload).content` for the payloads in scope: a payload
that is exactly an escape-free content object yields its content;
anything else (invalid JSON, or an object without a `content` key, such
as an error payload) yields nothing. -/
def decodePayload (p : List Char) : Option (List Char) :=
  if contentOpen.isPrefixOf p then
    let rest := p.drop contentOpen.length
    if contentClose.isSuffixOf rest ∧ 2 ≤ rest.length ∧
        '\"' ∉ rest.take (rest.length - 2) then
      some (rest.take (rest.length - 2))
    else none
  else none

/-- The content extracted from one received line: the line must start
with `data: ` and its payload must decode to a content delta. -/
def extractContent (line : List Char) : Option (List Char) :=
  if sseHeader.isPrefixOf line then decodePayload (line.drop sseHeader.length)
  else none

/-- The per-line body of both consumers' loops: append the delta to the
accumulated assistant content when the line carries one; otherwise
(no `data: ` prefix, unparsable payload, or an error payload that is
only logged) leave the accumulated content unchanged. -/
def stepLine (acc : List Char) (line : List Char) : List Char :=
  match extractContent line with
  | some c => acc ++ c
  | none => acc

/-- Processing a list of lines in order. -/
def processLines (acc : List Char) (lines : List (List Char)) : List Char :=
  lines.foldl stepLine acc

/-- `handleSendToChat`'s treatment of one network read: split the chunk
on newlines and process every piece — with no buffer carried between
reads. -/
def consumeReadUnbuffered (acc : List Char) (chunk : List Char) : List Char :=
  processLines acc (splitLines chunk)

/-- The unbuffered consumer (`handleSendToChat`, Chat.tsx 247–275) over
a whole sequence of network reads. -/
def handleSendToChatConsume (reads : List (List Char)) : List Char :=
  reads.foldl consumeReadUnbuffered []

/-- `handleSend`'s treatment of one network read: split `buffer + chunk`
on newlines, keep the last (incomplete) piece as the new buffer, and
process the complete lines. -/
def feedRead (st : List Char × List Char) (chunk : List Char) :
    List Char × List Char :=
  let parts := splitLines (st.2 ++ chunk)
  (processLines st.1 parts.dropLast, parts.getLastD [])

/-- The buffered consumer (`handleSend`, Chat.tsx 155–192) over a whole
sequence of network reads (the trailing buffer is discarded when the
stream ends, as in the source). -/
def handleSendConsume (reads : List (List Char)) : List Char :=
  (reads.foldl feedRead ([], [])).1

/-- C3 (code bug): the claim — every consumer reconstructs the full
answer from the content deltas regardless of how the byte stream is
split into network reads — fails on `handleSendToChat`.  For the
single-delta stream `data: {"content":"ab"}\n` split into two reads
inside the line, the unbuffered `handleSendToChat` consumer accumulates
nothing, although the very same consumer on the unsplit stream — and the
buffered `handleSend` consumer on the split stream — both reconstruct
`"ab"`. -/
theorem stream_split_read_loses_delta :
    (let wire := encodeEvent "ab".toList
     let reads := [wire.take 11, wire.drop 11]
     reads.flatten = wire ∧
     handleSendToChatConsume reads = [] ∧
     handleSendToChatConsume [wire] = "ab".toList ∧
     handleSendConsume reads = "ab".toList) := by
  decide

/-- C9: a received line that does not start with `data: `, or whose
payload does not decode to a content delta (invalid JSON, or an error
payload, which is only logged), is ignored by `handleSend`'s parse loop:
the previously accumulated assistant content is unchanged and the loop
goes on to process the remaining lines exactly as if the bad line were
absent. -/
theorem malformed_line_ignored (acc line : List Char) (rest : List (List Char))
    (hbad : sseHeader.isPrefixOf line = false ∨
      decodePayload (line.drop sseHeader.length) = none) :
    stepLine acc line = acc ∧
    processLines acc (line :: rest) = processLines acc rest := by
  have hstep : stepLine acc line = acc := by
    rcases hbad with h | h
    · simp [stepLine, extractContent, h]
    · simp [stepLine, extractContent, h]
  exact ⟨hstep, by simp [processLines, List.foldl_cons, hstep]⟩

/-- Witness for C9: an SSE comment line, an invalid-JSON data line and
an error payload, each ignored in front of a well-formed delta. -/
theorem malformed_line_ignored_witness :
    (sseHeader.isPrefixOf "data: \x7boops".toList = false ∨
      decodePayload ("data: \x7boops".toList.drop sseHeader.length) = none) ∧
    stepLine "hello ".toList "data: \x7boops".toList = "hello ".toList :=
  ⟨Or.inr (by decide),
    (malformed_line_ignored "hello ".toList "data: \x7boops".toList []
      (Or.inr (by decide))).1⟩

/-! ## Citation ordinal assignment (§3 Citation, §4.8)

Modelled from the spec: ordinal assignment happens in the backend
orchestrator, which is not part of the source tree; the frontend
(`ChatMessage` sources rendering, Chat.tsx 1693–1731) displays the
resulting `(num, source)` pairs unchanged.  §3/§4.8 specify 1-based
ordinals assigned per distinct source in order of first appearance in
the assembled prompt (multiple chunks of one document share one
number), web ordinals contiguous with RAG ordinals, and only sources
whose passages survived budgeting may appear.

`ragIncluded` / `webIncluded` list the source identifier (filename or
URL) of each passage actually included post-budgeting, in prompt order
— one element per passage, so a document contributing several chunks
appears several times and is collapsed to one citation. -/
def assignOrdinals (included : List (List Char)) : List (ℕ × List Char) :=
  (List.range' 1 (firstDedup included).length).zip (firstDedup included)

/-- C4: for one answer, the citation ordinals are exactly
`1, 2, …, n` in order (contiguous, 1-based, no gaps, no duplicates);
each distinct source carries exactly one ordinal (the cited sources are
the first occurrences of the included passages' sources, with no source
repeated, so all chunks of one document share its single number and web
ordinals continue the RAG numbering); and every cited source is the
source of some included passage — a source dropped by budget truncation
never appears. -/
theorem citation_ordinals_contiguous (ragIncluded webIncluded : List (List Char)) :
    (assignOrdinals (ragIncluded ++ webIncluded)).map Prod.fst
      = List.range' 1 (firstDedup (ragIncluded ++ webIncluded)).length ∧
    (assignOrdinals (ragIncluded ++ webIncluded)).map Prod.snd
      = firstDedup (ragIncluded ++ webIncluded) ∧
    (firstDedup (ragIncluded ++ webIncluded)).Nodup ∧
    ∀ p ∈ assignOrdinals (ragIncluded ++ webIncluded),
      p.2 ∈ ragIncluded ++ webIncluded := by
  have hlen : (List.range' 1 (firstDedup (ragIncluded ++ webIncluded)).length).length
      = (firstDedup (ragIncluded ++ webIncluded)).length := by
    simp [List.length_range']
  refine ⟨?_, ?_, nodup_firstDedup _, ?_⟩
  · exact List.map_fst_zip _ _ (le_of_eq hlen)
  · exact List.map_snd_zip _ _ (le_of_eq hlen.symm)
  · intro p hp
    have h2 : p.2 ∈ firstDedup (ragIncluded ++ webIncluded) :=
      (List.of_mem_zip hp).2
    exact (mem_firstDedup _ _).mp h2

/-- Witness for C4: two RAG passages from the same document, one from
another, and one web source. -/
theorem citation_ordinals_contiguous_witness :
    ((1, "a.pdf".toList) ∈ assignOrdinals
        (["a.pdf".toList, "a.pdf".toList, "b.md".toList] ++ ["example.com".toList]) ∧
      (assignOrdinals
        (["a.pdf".toList, "a.pdf".toList, "b.md".toList] ++ ["example.com".toList])).map
          Prod.fst = [1, 2, 3]) ∧
    "a.pdf".toList ∈
      ["a.pdf".toList, "a.pdf".toList, "b.md".toList] ++ ["example.com".toList] :=
  ⟨⟨by decide, by decide⟩,
    ((citation_ordinals_contiguous ["a.pdf".toList, "a.pdf".toList, "b.md".toList]
        ["example.com".toList]).2.2.2 (1, "a.pdf".toList) (by decide))⟩

/-! ## Chat input file filter (`ChatInput.tsx` lines 37–49)

`handleFileSelect` filters the selected files with
`file.name.split('.').pop()?.toLowerCase()` tested against
`['pdf', 'docx', 'txt', 'md']` and appends the survivors to the
previously attached files.  Filenames are `List Char`. -/
def allowedExtensions : List (List Char) :=
  ["pdf".toList, "docx".toList, "txt".toList, "md".toList]

/-- `file.name.split('.').pop()?.toLowerCase()` — the last dot-separated
segment of the filename, lowercased (for a dotless name this is the
whole name). -/
def extKey (name : List Char) : List Char :=
  ((splitOnChar '.' name).getLastD []).map Char.toLower

/-- The filter predicate of `handleFileSelect`. -/
def isAllowedFile (name : List Char) : Bool :=
  allowedExtensions.contains (extKey name)

/-- `handleFileSelect`: the newly selected files are filtered by
`isAllowedFile` and appended to the already-attached list. -/
def handleFileSelect (prev files : List (List Char)) : List (List Char) :=
  prev ++ files.filter isAllowedFile

/-- Possession of a file extension from `exts`, per the claim's words: a
file extension requires a dot, and is the part after the last dot,
matched case-insensitively. -/
def hasExtensionIn (name : List Char) (exts : List (List Char)) : Bool :=
  2 ≤ (splitOnChar '.' name).length && exts.contains (extKey name)

/-- C10 counterexample: a file whose name is the
bare string `pdf` (no dot, hence no file extension at all) passes
`handleFileSelect`'s filter and is attached, refuting the claim that
every attached file has an extension in {pdf, docx, txt, md}. -/
theorem file_filter_dotless_counterexample :
    "pdf".toList ∈ handleFileSelect [] ["pdf".toList] ∧
    hasExtensionIn "pdf".toList allowedExtensions = false := by
  decide

/-- C10 (amended): every file in the attached list after a selection is
either previously attached or satisfies the selection filter — its last
dot-separated name segment (the whole name when there is no dot),
lowercased, is one of `pdf`, `docx`, `txt`, `md`; all other selected
files are silently dropped. -/
theorem file_filter_amended (prev files : List (List Char)) :
    ∀ f ∈ handleFileSelect prev files, f ∈ prev ∨ isAllowedFile f = true := by
  intro f hf
  rcases List.mem_append.mp hf with h | h
  · exact Or.inl h
  · exact Or.inr (List.mem_filter.mp h).2

/-- Witness for C10 (amended): a selection containing an allowed file,
a disallowed file and an uppercase-extension file. -/
theorem file_filter_amended_witness :
    "notes.TXT".toList ∈ handleFileSelect ["old.pdf".toList]
      ["notes.TXT".toList, "virus.exe".toList] ∧
    ("notes.TXT".toList ∈ ["old.pdf".toList] ∨
      isAllowedFile "notes.TXT".toList = true) :=
  ⟨by decide,
    file_filter_amended ["old.pdf".toList] ["notes.TXT".toList, "virus.exe".toList]
      "notes.TXT".toList (by decide)⟩
